import Mathlib

/-!
Shallow embedding of `dsc40graph.py`, a small undirected/directed graph
library built on adjacency sets.

Python dictionaries are modelled as association lists (`Adj α`): insertion
order is kept, keys are looked up by equality, `d[k] = v` replaces the value
in place when the key exists and appends otherwise, `del d[k]` removes the
entry.  Python sets are modelled as duplicate-free lists; `set.add` appends
when absent, `set.discard` erases.  A statement that can raise is modelled
with `Except (PyErr × σ) σ`: the error value carries the state of the graph
at the moment the exception is raised, so that "no mutation before the
raise" is expressible.
-/

set_option linter.unusedSectionVars false
set_option linter.unusedVariables false

variable {α : Type} [DecidableEq α]

/-- The exceptions that the code can raise. -/
inductive PyErr : Type where
  | valueError : PyErr
  | keyError : PyErr
deriving DecidableEq

/-- Adjacency storage: a Python `dict` from labels to Python `set`s of
labels, modelled as an insertion-ordered association list whose values are
duplicate-free lists. -/
abbrev Adj (α : Type) := List (α × List α)

/-- Dictionary lookup `d[u]`, returning `none` when the key is absent. -/
def dictGet (adj : Adj α) (u : α) : Option (List α) :=
  match adj with
  | [] => none
  | (k, v) :: rest => if k = u then some v else dictGet rest u

/-- Dictionary assignment `d[k] = v`: replace in place when present,
append otherwise. -/
def dictSet (adj : Adj α) (k : α) (v : List α) : Adj α :=
  match adj with
  | [] => [(k, v)]
  | (k', v') :: rest =>
    if k' = k then (k, v) :: rest else (k', v') :: dictSet rest k v

/-- In-place mutation of the value stored at key `k` (used for
`d[k].add(x)` and `d[k].discard(x)` once the key is known to exist).
Entry order and all other entries are untouched. -/
def dictAdjust (adj : Adj α) (k : α) (f : List α → List α) : Adj α :=
  match adj with
  | [] => []
  | (k', v') :: rest =>
    if k' = k then (k', f v') :: dictAdjust rest k f
    else (k', v') :: dictAdjust rest k f

/-- Dictionary deletion `del d[k]`. -/
def dictDel (adj : Adj α) (k : α) : Adj α :=
  match adj with
  | [] => []
  | (k', v) :: rest => if k' = k then dictDel rest k else (k', v) :: dictDel rest k

/-- Python `set.add`: insert when absent (append keeps a deterministic
order for the model), no-op when present. -/
def setAdd (s : List α) (x : α) : List α :=
  if x ∈ s then s else s ++ [x]

/-- Python `set.discard`: remove the element when present, no-op otherwise. -/
def setDiscard (s : List α) (x : α) : List α :=
  s.erase x

/-- `v ∈ d[u]` read off the adjacency storage, with a missing key giving
the empty set. -/
def memAdj (adj : Adj α) (u v : α) : Prop :=
  v ∈ (dictGet adj u).getD []

instance (adj : Adj α) (u v : α) : Decidable (memAdj adj u v) := by
  unfold memAdj; infer_instance

/-- `_EdgeView.__contains__`: `v in self._adj[u]` with `KeyError` caught
and turned into `False`. -/
def edgeViewContains (adj : Adj α) (u v : α) : Bool :=
  match dictGet adj u with
  | some s => decide (v ∈ s)
  | none => false

/-- A view into a graph's edges (`_EdgeView`): a reference to the
adjacency storage plus the edge count captured at construction time. -/
structure EdgeView (α : Type) where
  _adj : Adj α
  _number_of_edges : Int

/-- `_EdgeView.__len__`. -/
def EdgeView.len (ev : EdgeView α) : Int :=
  ev._number_of_edges

/-- `_EdgeView.__contains__` on a view. -/
def EdgeView.contains (ev : EdgeView α) (u v : α) : Bool :=
  edgeViewContains ev._adj u v

/-- `_UndirectedEdgeView.__iter__`, inner loop over the neighbors of one
node, threading the `seen` set of already-emitted unordered pairs. -/
def iterInner (u : α) : List α → Finset (Sym2 α) → List (α × α) × Finset (Sym2 α)
  | [], seen => ([], seen)
  | v :: rest, seen =>
    if Sym2.mk (u, v) ∈ seen then iterInner u rest seen
    else
      let out := iterInner u rest (insert (Sym2.mk (u, v)) seen)
      ((u, v) :: out.1, out.2)

/-- `_UndirectedEdgeView.__iter__`, outer loop over `self._adj.items()`. -/
def iterOuter : Adj α → Finset (Sym2 α) → List (α × α)
  | [], _ => []
  | (u, nbrs) :: rest, seen =>
    let inner := iterInner u nbrs seen
    inner.1 ++ iterOuter rest inner.2

/-- The full list of edges yielded by `_UndirectedEdgeView.__iter__`. -/
def edgeIter (adj : Adj α) : List (α × α) :=
  iterOuter adj ∅

/-- `UndirectedGraph`: adjacency storage plus the edge counter. -/
structure UndirectedGraph (α : Type) where
  adj : Adj α
  _number_of_edges : Int
deriving DecidableEq

namespace UndirectedGraph

/-- A freshly constructed `UndirectedGraph()`. -/
def empty : UndirectedGraph α := ⟨[], 0⟩

/-- The `nodes` property: the key view of the adjacency dict. -/
def nodes (g : UndirectedGraph α) : List α :=
  g.adj.map Prod.fst

/-- The `edges` property: a fresh view bound to the current adjacency
storage and edge count. -/
def edges (g : UndirectedGraph α) : EdgeView α :=
  ⟨g.adj, g._number_of_edges⟩

/-- `_Graph.add_node`: insert the label with an empty adjacency set when it
is not already a node. -/
def add_node (g : UndirectedGraph α) (label : α) : UndirectedGraph α :=
  if (dictGet g.adj label).isSome then g
  else { g with adj := dictSet g.adj label [] }

/-- `UndirectedGraph.add_edge`.  The self-loop check comes first and raises
`ValueError`; then both endpoints are created if absent (the Python source
iterates the two-element set literal; the model takes them in argument
order); then, when the edge is not already present, both adjacency sets and
the counter are updated. -/
def add_edge (g : UndirectedGraph α) (u_label v_label : α) :
    Except (PyErr × UndirectedGraph α) (UndirectedGraph α) :=
  if u_label = v_label then .error (.valueError, g)
  else
    let g1 := if (dictGet g.adj u_label).isSome then g
              else { g with adj := dictSet g.adj u_label [] }
    let g2 := if (dictGet g1.adj v_label).isSome then g1
              else { g1 with adj := dictSet g1.adj v_label [] }
    if edgeViewContains g2.adj u_label v_label then .ok g2
    else .ok { adj := dictAdjust (dictAdjust g2.adj u_label
                        (fun s => setAdd s v_label)) v_label
                        (fun s => setAdd s u_label),
               _number_of_edges := g2._number_of_edges + 1 }

/-- The loop body of `UndirectedGraph.remove_node`: for each neighbor,
`self.adj[neighbor]` is looked up (a missing key raises `KeyError`), the
label is discarded from it, and the counter is decremented. -/
def removeLoop (label : α) : List α → UndirectedGraph α →
    Except (PyErr × UndirectedGraph α) (UndirectedGraph α)
  | [], g => .ok g
  | n :: rest, g =>
    match dictGet g.adj n with
    | none => .error (.keyError, g)
    | some _ =>
      removeLoop label rest
        { adj := dictAdjust g.adj n (fun s => setDiscard s label),
          _number_of_edges := g._number_of_edges - 1 }

/-- `UndirectedGraph.remove_node`: no-op when the label is unknown,
otherwise detach the label from every neighbor and delete its entry. -/
def remove_node (g : UndirectedGraph α) (label : α) :
    Except (PyErr × UndirectedGraph α) (UndirectedGraph α) :=
  match dictGet g.adj label with
  | none => .ok g
  | some nbrs =>
    match removeLoop label nbrs g with
    | .error e => .error e
    | .ok g' => .ok { g' with adj := dictDel g'.adj label }

/-- `UndirectedGraph.neighbors`: a plain dict lookup that raises `KeyError`
on an unknown label. -/
def neighbors (g : UndirectedGraph α) (u_label : α) : Except PyErr (List α) :=
  match dictGet g.adj u_label with
  | some s => .ok s
  | none => .error .keyError

end UndirectedGraph

/-- `DirectedGraph`: forward (`adj`) and backward (`back_adj`) adjacency
storage plus the edge counter. -/
structure DirectedGraph (α : Type) where
  adj : Adj α
  back_adj : Adj α
  _number_of_edges : Int
deriving DecidableEq

namespace DirectedGraph

/-- A freshly constructed `DirectedGraph()`. -/
def empty : DirectedGraph α := ⟨[], [], 0⟩

/-- The `nodes` property of a directed graph: keys of the forward map. -/
def nodes (g : DirectedGraph α) : List α :=
  g.adj.map Prod.fst

/-- The `edges` property: a `_DirectedEdgeView` bound to the forward
adjacency storage and the current count. -/
def edges (g : DirectedGraph α) : EdgeView α :=
  ⟨g.adj, g._number_of_edges⟩

/-- `_Graph.add_node`, inherited unchanged by `DirectedGraph`: it touches
only the forward map `self.adj`. -/
def add_node (g : DirectedGraph α) (label : α) : DirectedGraph α :=
  if (dictGet g.adj label).isSome then g
  else { g with adj := dictSet g.adj label [] }

/-- One iteration of the node-creation loop in `DirectedGraph.add_edge`:
ensure `x` is a key of both `adj` and `back_adj`. -/
def ensureBoth (g : DirectedGraph α) (x : α) : DirectedGraph α :=
  let g1 := if (dictGet g.adj x).isSome then g
            else { g with adj := dictSet g.adj x [] }
  if (dictGet g1.back_adj x).isSome then g1
  else { g1 with back_adj := dictSet g1.back_adj x [] }

/-- `DirectedGraph.add_edge`: create missing endpoints in both maps, then
unconditionally insert and increment the counter.  (When the two labels
coincide the Python set literal iterates once; running `ensureBoth` twice
is equivalent because the second run finds every key present.) -/
def add_edge (g : DirectedGraph α) (u_label v_label : α) : DirectedGraph α :=
  let g2 := ensureBoth (ensureBoth g u_label) v_label
  { adj := dictAdjust g2.adj u_label (fun s => setAdd s v_label),
    back_adj := dictAdjust g2.back_adj v_label (fun s => setAdd s u_label),
    _number_of_edges := g2._number_of_edges + 1 }

/-- The predecessor loop of `DirectedGraph.remove_node`: for each parent,
`self.adj[parent]` is looked up (a missing key raises `KeyError`), the node
is discarded from it, and the counter is decremented. -/
def dRemoveLoop (node : α) : List α → DirectedGraph α →
    Except (PyErr × DirectedGraph α) (DirectedGraph α)
  | [], g => .ok g
  | p :: rest, g =>
    match dictGet g.adj p with
    | none => .error (.keyError, g)
    | some _ =>
      dRemoveLoop node rest
        { g with adj := dictAdjust g.adj p (fun s => setDiscard s node),
                 _number_of_edges := g._number_of_edges - 1 }

/-- `DirectedGraph.remove_node`, statement by statement.  Note that the
source reads `self.back_adj[node]` without guarding for presence, re-reads
it after the self-loop special case, and finally deletes only the forward
entry `self.adj[node]`. -/
def remove_node (g : DirectedGraph α) (node : α) :
    Except (PyErr × DirectedGraph α) (DirectedGraph α) :=
  match dictGet g.adj node with
  | none => .ok g
  | some _ =>
    match dictGet g.back_adj node with
    | none => .error (.keyError, g)
    | some bn =>
      let g1 := if node ∈ bn then
          { adj := dictAdjust g.adj node (fun s => setDiscard s node),
            back_adj := dictAdjust g.back_adj node (fun s => setDiscard s node),
            _number_of_edges := g._number_of_edges - 1 }
        else g
      match dictGet g1.back_adj node with
      | none => .error (.keyError, g1)
      | some bn1 =>
        match dRemoveLoop node bn1 g1 with
        | .error e => .error e
        | .ok g2 =>
          match dictGet g2.adj node with
          | none => .error (.keyError, g2)
          | some an =>
            .ok { g2 with adj := dictDel g2.adj node,
                          _number_of_edges := g2._number_of_edges - an.length }

/-- `DirectedGraph.predecessors`: raises `KeyError` on an unknown label. -/
def predecessors (g : DirectedGraph α) (node : α) : Except PyErr (List α) :=
  match dictGet g.back_adj node with
  | some s => .ok s
  | none => .error .keyError

/-- `DirectedGraph.successors`: raises `KeyError` on an unknown label. -/
def successors (g : DirectedGraph α) (node : α) : Except PyErr (List α) :=
  match dictGet g.adj node with
  | some s => .ok s
  | none => .error .keyError

/-- `DirectedGraph.neighbors` is an alias for `successors`. -/
def neighbors (g : DirectedGraph α) (node : α) : Except PyErr (List α) :=
  g.successors node

end DirectedGraph

/-- The graph state a caller observes after running a statement that can
raise: the payload on success, the state carried at the raise otherwise. -/
def runState {σ : Type} : Except (PyErr × σ) σ → σ
  | .ok s => s
  | .error (_, s) => s

/-- The undirected graph states reachable from a fresh graph by any
sequence of `add_node`, `add_edge` and `remove_node` calls (a raising call
leaves the caller holding the state at the raise point). -/
inductive UReachable : UndirectedGraph α → Prop where
  | empty : UReachable UndirectedGraph.empty
  | add_node (g : UndirectedGraph α) (x : α) :
      UReachable g → UReachable (g.add_node x)
  | add_edge (g : UndirectedGraph α) (u v : α) :
      UReachable g → UReachable (runState (g.add_edge u v))
  | remove_node (g : UndirectedGraph α) (x : α) :
      UReachable g → UReachable (runState (g.remove_node x))

/-- The directed graph states reachable from a fresh graph by any sequence
of `add_node`, `add_edge` and `remove_node` calls. -/
inductive DReachable : DirectedGraph α → Prop where
  | empty : DReachable DirectedGraph.empty
  | add_node (g : DirectedGraph α) (x : α) :
      DReachable g → DReachable (g.add_node x)
  | add_edge (g : DirectedGraph α) (u v : α) :
      DReachable g → DReachable (g.add_edge u v)
  | remove_node (g : DirectedGraph α) (x : α) :
      DReachable g → DReachable (runState (g.remove_node x))

/-! ### Dictionary and set lemmas -/

theorem mem_setAdd (s : List α) (x a : α) :
    a ∈ setAdd s x ↔ a ∈ s ∨ a = x := by
  unfold setAdd
  by_cases h : x ∈ s
  · simp only [if_pos h]
    constructor
    · exact Or.inl
    · rintro (hm | rfl) <;> [exact hm; exact h]
  · simp [if_neg h]

theorem nodup_setAdd {s : List α} (x : α) (h : s.Nodup) : (setAdd s x).Nodup := by
  unfold setAdd
  by_cases hx : x ∈ s
  · simpa [hx]
  · simp [hx, List.nodup_append, h]

theorem dictGet_eq_none_iff (adj : Adj α) (u : α) :
    dictGet adj u = none ↔ u ∉ adj.map Prod.fst := by
  induction adj with
  | nil => simp [dictGet]
  | cons p rest ih =>
    obtain ⟨k, v⟩ := p
    by_cases h : k = u
    · subst h; simp [dictGet]
    · simp [dictGet, h, ih, Ne.symm h]

theorem dictGet_isSome_iff (adj : Adj α) (u : α) :
    (dictGet adj u).isSome = true ↔ u ∈ adj.map Prod.fst := by
  have h := dictGet_eq_none_iff adj u
  cases hd : dictGet adj u with
  | none => simpa [hd] using h.mp hd
  | some s =>
    simp only [Option.isSome_some, true_iff]
    by_contra hmem
    rw [← h] at hmem
    simp [hd] at hmem

theorem dictGet_mem {adj : Adj α} {u : α} {s : List α}
    (h : dictGet adj u = some s) : (u, s) ∈ adj := by
  induction adj with
  | nil => simp [dictGet] at h
  | cons p rest ih =>
    obtain ⟨k, v⟩ := p
    by_cases hk : k = u
    · subst hk
      simp [dictGet] at h
      subst h; exact List.mem_cons_self _ _
    · simp only [dictGet, if_neg hk] at h
      exact List.mem_cons_of_mem _ (ih h)

theorem dictGet_of_mem_nodup {adj : Adj α} {u : α} {s : List α}
    (hn : (adj.map Prod.fst).Nodup) (hm : (u, s) ∈ adj) :
    dictGet adj u = some s := by
  induction adj with
  | nil => simp at hm
  | cons p rest ih =>
    obtain ⟨k, v⟩ := p
    simp only [List.map_cons, List.nodup_cons] at hn
    rcases List.mem_cons.mp hm with h | h
    · obtain ⟨rfl, rfl⟩ := Prod.mk.injEq .. ▸ h
      · simp [dictGet]
    · have hku : k ≠ u := by
        rintro rfl
        exact hn.1 (List.mem_map.mpr ⟨(k, s), h, rfl⟩)
      simp [dictGet, hku, ih hn.2 h]

theorem dictGet_append_of_some {l1 : Adj α} {u : α} {s : List α}
    (l2 : Adj α) (h : dictGet l1 u = some s) :
    dictGet (l1 ++ l2) u = some s := by
  induction l1 with
  | nil => simp [dictGet] at h
  | cons p rest ih =>
    obtain ⟨k, v⟩ := p
    by_cases hk : k = u
    · subst hk; simp_all [dictGet]
    · simp_all [dictGet, hk]

theorem dictGet_append_of_none {l1 : Adj α} {u : α}
    (l2 : Adj α) (h : dictGet l1 u = none) :
    dictGet (l1 ++ l2) u = dictGet l2 u := by
  induction l1 with
  | nil => simp
  | cons p rest ih =>
    obtain ⟨k, v⟩ := p
    by_cases hk : k = u
    · subst hk; simp_all [dictGet]
    · simp_all [dictGet, hk]

theorem dictSet_eq_append {adj : Adj α} {k : α} (v : List α)
    (h : dictGet adj k = none) : dictSet adj k v = adj ++ [(k, v)] := by
  induction adj with
  | nil => simp [dictSet]
  | cons p rest ih =>
    obtain ⟨k', v'⟩ := p
    by_cases hk : k' = k
    · subst hk; simp [dictGet] at h
    · simp only [dictGet, if_neg hk] at h
      simp [dictSet, hk, ih h]

theorem dictGet_dictAdjust (adj : Adj α) (k : α) (f : List α → List α) (w : α) :
    dictGet (dictAdjust adj k f) w =
      if w = k then (dictGet adj k).map f else dictGet adj w := by
  induction adj with
  | nil => simp [dictAdjust, dictGet]
  | cons p rest ih =>
    obtain ⟨k', v'⟩ := p
    by_cases hk : k' = k <;> by_cases hw : k' = w
    · have hwk : w = k := by rw [← hw, hk]
      simp [dictAdjust, dictGet, hk, hw, hwk]
    · have hwk : ¬ w = k := fun h => hw (by rw [hk, ← h])
      have hkw : ¬ k = w := fun h => hw (hk.trans h)
      simp [dictAdjust, dictGet, hk, hw, hwk, hkw, ih]
    · have hwk : ¬ w = k := fun h => hk (by rw [hw, h])
      simp [dictAdjust, dictGet, hk, hw, hwk]
    · simp [dictAdjust, dictGet, hk, hw, ih]

theorem keys_dictAdjust (adj : Adj α) (k : α) (f : List α → List α) :
    (dictAdjust adj k f).map Prod.fst = adj.map Prod.fst := by
  induction adj with
  | nil => rfl
  | cons p rest ih =>
    obtain ⟨k', v'⟩ := p
    by_cases hk : k' = k <;> simp [dictAdjust, hk, ih]

theorem vals_dictAdjust {adj : Adj α} {k : α} {f : List α → List α}
    {p : α × List α} (hp : p ∈ dictAdjust adj k f) :
    p ∈ adj ∨ ∃ s, (p.1, s) ∈ adj ∧ p.2 = f s := by
  induction adj with
  | nil => simp [dictAdjust] at hp
  | cons q rest ih =>
    obtain ⟨k', v'⟩ := q
    by_cases hk : k' = k
    · rw [dictAdjust, if_pos hk] at hp
      rcases List.mem_cons.mp hp with h | h
      · subst h
        exact Or.inr ⟨v', List.mem_cons_self _ _, rfl⟩
      · rcases ih h with h1 | ⟨s, hs, he⟩
        · exact Or.inl (List.mem_cons_of_mem _ h1)
        · exact Or.inr ⟨s, List.mem_cons_of_mem _ hs, he⟩
    · rw [dictAdjust, if_neg hk] at hp
      rcases List.mem_cons.mp hp with h | h
      · subst h
        exact Or.inl (List.mem_cons_self _ _)
      · rcases ih h with h1 | ⟨s, hs, he⟩
        · exact Or.inl (List.mem_cons_of_mem _ h1)
        · exact Or.inr ⟨s, List.mem_cons_of_mem _ hs, he⟩

theorem dictGet_dictDel (adj : Adj α) (k w : α) :
    dictGet (dictDel adj k) w = if w = k then none else dictGet adj w := by
  induction adj with
  | nil => simp [dictDel, dictGet]
  | cons p rest ih =>
    obtain ⟨k', v'⟩ := p
    by_cases hk : k' = k <;> by_cases hw : k' = w
    · have hwk : w = k := by rw [← hw, hk]
      simp only [dictDel, if_pos hk, hwk, if_pos rfl]
      simpa [hwk] using ih
    · have hwk : ¬ w = k := fun h => hw (by rw [hk, ← h])
      have hkw : ¬ k = w := fun h => hw (hk.trans h)
      simp [dictDel, dictGet, hk, hw, hwk, hkw, ih]
    · have hwk : ¬ w = k := fun h => hk (by rw [hw, h])
      simp [dictDel, dictGet, hk, hw, hwk]
    · simp [dictDel, dictGet, hk, hw, ih]

theorem dictDel_sublist (adj : Adj α) (k : α) : (dictDel adj k).Sublist adj := by
  induction adj with
  | nil => simp [dictDel]
  | cons p rest ih =>
    obtain ⟨k', v'⟩ := p
    by_cases hk : k' = k
    · rw [dictDel, if_pos hk]
      exact ih.cons _
    · rw [dictDel, if_neg hk]
      exact ih.cons₂ _

theorem memAdj_iff (adj : Adj α) (u v : α) :
    memAdj adj u v ↔ ∃ s, dictGet adj u = some s ∧ v ∈ s := by
  unfold memAdj
  cases h : dictGet adj u <;> simp

theorem edgeViewContains_iff (adj : Adj α) (u v : α) :
    edgeViewContains adj u v = true ↔ memAdj adj u v := by
  unfold edgeViewContains
  rw [memAdj_iff]
  cases h : dictGet adj u <;> simp

theorem memAdj_key {adj : Adj α} {u v : α} (h : memAdj adj u v) :
    (dictGet adj u).isSome = true := by
  rw [memAdj_iff] at h
  obtain ⟨s, hs, _⟩ := h
  simp [hs]

/-! ### Well-formedness of the adjacency storage and the edge set -/

/-- Python dicts have no duplicate keys. -/
def keysNodup (adj : Adj α) : Prop := (adj.map Prod.fst).Nodup

instance (adj : Adj α) : Decidable (keysNodup adj) := by
  unfold keysNodup; infer_instance

/-- Python sets have no duplicate elements. -/
def valsNodup (adj : Adj α) : Prop := ∀ p ∈ adj, p.2.Nodup

/-- The symmetry invariant of an undirected adjacency mapping. -/
def Symm (adj : Adj α) : Prop := ∀ u v, memAdj adj u v → memAdj adj v u

/-- No self-loops are stored. -/
def Irrefl (adj : Adj α) : Prop := ∀ u, ¬ memAdj adj u u

/-- All ordered pairs `(u, v)` with `v` stored in the adjacency set of
`u`, enumerated in storage order. -/
def allPairs (adj : Adj α) : List (α × α) :=
  adj.flatMap (fun p => p.2.map (fun v => (p.1, v)))

/-- The set of distinct unordered pairs currently connected in the
adjacency mapping. -/
def edgeFinset (adj : Adj α) : Finset (Sym2 α) :=
  ((allPairs adj).map Sym2.mk).toFinset

theorem mem_allPairs (adj : Adj α) (a b : α) :
    (a, b) ∈ allPairs adj ↔ ∃ s, (a, s) ∈ adj ∧ b ∈ s := by
  unfold allPairs
  rw [List.mem_flatMap]
  constructor
  · rintro ⟨p, hp, hm⟩
    obtain ⟨v, hv, he⟩ := List.mem_map.mp hm
    obtain ⟨h1, h2⟩ := Prod.mk.injEq .. ▸ he
    exact ⟨p.2, by simpa [← h1] using hp, h2 ▸ hv⟩
  · rintro ⟨s, hs, hb⟩
    exact ⟨(a, s), hs, List.mem_map.mpr ⟨b, hb, rfl⟩⟩

theorem mem_allPairs_nodup {adj : Adj α} (hk : keysNodup adj) (a b : α) :
    (a, b) ∈ allPairs adj ↔ memAdj adj a b := by
  rw [mem_allPairs, memAdj_iff]
  constructor
  · rintro ⟨s, hs, hb⟩
    exact ⟨s, dictGet_of_mem_nodup hk hs, hb⟩
  · rintro ⟨s, hs, hb⟩
    exact ⟨s, dictGet_mem hs, hb⟩

theorem mem_edgeFinset {adj : Adj α} (hk : keysNodup adj) (u v : α) :
    Sym2.mk (u, v) ∈ edgeFinset adj ↔ memAdj adj u v ∨ memAdj adj v u := by
  unfold edgeFinset
  rw [List.mem_toFinset, List.mem_map]
  constructor
  · rintro ⟨e, he, heq⟩
    obtain ⟨a, b⟩ := e
    rcases Sym2.mk_eq_mk_iff.mp heq with h | h
    · obtain ⟨h1, h2⟩ := Prod.mk.injEq .. ▸ h
      subst h1; subst h2
      exact Or.inl ((mem_allPairs_nodup hk _ _).mp he)
    · obtain ⟨h1, h2⟩ := Prod.mk.injEq .. ▸ h
      subst h1; subst h2
      exact Or.inr ((mem_allPairs_nodup hk _ _).mp he)
  · rintro (h | h)
    · exact ⟨(u, v), (mem_allPairs_nodup hk _ _).mpr h, rfl⟩
    · exact ⟨(v, u), (mem_allPairs_nodup hk _ _).mpr h,
        Sym2.mk_eq_mk_iff.mpr (Or.inr rfl)⟩

theorem mem_edgeFinset_symm {adj : Adj α} (hk : keysNodup adj)
    (hs : Symm adj) (u v : α) :
    Sym2.mk (u, v) ∈ edgeFinset adj ↔ memAdj adj u v := by
  rw [mem_edgeFinset hk]
  exact ⟨fun h => h.elim id (hs v u), Or.inl⟩

/-- The structural invariant of an undirected graph: well-formed dict/set
storage, symmetry, no self-loops, and an accurate edge counter. -/
structure UInv (g : UndirectedGraph α) : Prop where
  keys : keysNodup g.adj
  vals : valsNodup g.adj
  symm : Symm g.adj
  irrefl : Irrefl g.adj
  count : g._number_of_edges = ((edgeFinset g.adj).card : Int)

/-! ### Preservation lemmas: `add_node` -/

theorem valsNodup_dictAdjust {adj : Adj α} {k : α} {f : List α → List α}
    (hv : valsNodup adj) (hf : ∀ s, s.Nodup → (f s).Nodup) :
    valsNodup (dictAdjust adj k f) := by
  intro p hp
  rcases vals_dictAdjust hp with h | ⟨s, hs, he⟩
  · exact hv p h
  · rw [he]
    exact hf s (hv (p.1, s) hs)

namespace UndirectedGraph

theorem add_node_count (g : UndirectedGraph α) (x : α) :
    (g.add_node x)._number_of_edges = g._number_of_edges := by
  unfold add_node
  split <;> rfl

theorem dictGet_add_node (g : UndirectedGraph α) (x w : α) :
    dictGet (g.add_node x).adj w =
      match dictGet g.adj w with
      | some s => some s
      | none => if x = w then some [] else none := by
  unfold add_node
  by_cases hx : (dictGet g.adj x).isSome
  · rw [if_pos hx]
    cases h : dictGet g.adj w with
    | some s => rfl
    | none =>
      by_cases hxw : x = w
      · subst hxw; simp [h] at hx
      · simp [hxw]
  · rw [if_neg hx]
    have hnone : dictGet g.adj x = none := Option.not_isSome_iff_eq_none.mp hx
    show dictGet (dictSet g.adj x []) w = _
    rw [dictSet_eq_append _ hnone]
    cases h : dictGet g.adj w with
    | some s => rw [dictGet_append_of_some _ h]
    | none =>
      rw [dictGet_append_of_none _ h]
      simp [dictGet]

theorem memAdj_add_node (g : UndirectedGraph α) (x u v : α) :
    memAdj (g.add_node x).adj u v ↔ memAdj g.adj u v := by
  unfold memAdj
  rw [dictGet_add_node]
  cases h : dictGet g.adj u with
  | some s => simp
  | none =>
    by_cases hxu : x = u <;> simp [hxu]

theorem isSome_add_node_self (g : UndirectedGraph α) (x : α) :
    (dictGet (g.add_node x).adj x).isSome = true := by
  rw [dictGet_add_node]
  cases h : dictGet g.adj x <;> simp

theorem isSome_add_node_mono (g : UndirectedGraph α) (x : α) {w : α}
    (h : (dictGet g.adj w).isSome = true) :
    (dictGet (g.add_node x).adj w).isSome = true := by
  rw [dictGet_add_node]
  obtain ⟨s, hs⟩ := Option.isSome_iff_exists.mp h
  simp [hs]

theorem keysNodup_add_node {g : UndirectedGraph α} (hk : keysNodup g.adj)
    (x : α) : keysNodup (g.add_node x).adj := by
  unfold add_node
  by_cases hx : (dictGet g.adj x).isSome
  · rwa [if_pos hx]
  · rw [if_neg hx]
    have hnone : dictGet g.adj x = none := Option.not_isSome_iff_eq_none.mp hx
    have hmem : x ∉ g.adj.map Prod.fst := (dictGet_eq_none_iff _ _).mp hnone
    show keysNodup (dictSet g.adj x [])
    rw [dictSet_eq_append _ hnone]
    unfold keysNodup at *
    rw [List.map_append, List.nodup_append]
    refine ⟨hk, by simp, ?_⟩
    intro a ha hsingle
    simp only [List.map_cons, List.map_nil, List.mem_singleton] at hsingle
    exact hmem (hsingle ▸ ha)

theorem valsNodup_add_node {g : UndirectedGraph α} (hv : valsNodup g.adj)
    (x : α) : valsNodup (g.add_node x).adj := by
  unfold add_node
  by_cases hx : (dictGet g.adj x).isSome
  · rwa [if_pos hx]
  · rw [if_neg hx]
    have hnone : dictGet g.adj x = none := Option.not_isSome_iff_eq_none.mp hx
    show valsNodup (dictSet g.adj x [])
    rw [dictSet_eq_append _ hnone]
    intro p hp
    rcases List.mem_append.mp hp with h | h
    · exact hv p h
    · simp only [List.mem_singleton] at h
      subst h; simp

theorem edgeFinset_add_node (g : UndirectedGraph α) (x : α) :
    edgeFinset (g.add_node x).adj = edgeFinset g.adj := by
  unfold add_node
  by_cases hx : (dictGet g.adj x).isSome
  · rw [if_pos hx]
  · rw [if_neg hx]
    have hnone : dictGet g.adj x = none := Option.not_isSome_iff_eq_none.mp hx
    show edgeFinset (dictSet g.adj x []) = _
    rw [dictSet_eq_append _ hnone]
    unfold edgeFinset allPairs
    rw [List.flatMap_append]
    simp

theorem UInv_add_node {g : UndirectedGraph α} (hI : UInv g) (x : α) :
    UInv (g.add_node x) := by
  refine ⟨keysNodup_add_node hI.keys x, valsNodup_add_node hI.vals x, ?_, ?_, ?_⟩
  · intro u v h
    rw [memAdj_add_node] at h ⊢
    exact hI.symm u v h
  · intro u h
    rw [memAdj_add_node] at h
    exact hI.irrefl u h
  · rw [add_node_count, edgeFinset_add_node]
    exact hI.count

end UndirectedGraph

/-! ### Preservation lemmas: `add_edge` (undirected) -/

/-- The adjacency storage produced by the insert branch of the undirected
`add_edge`. -/
def insertEdgeAdj (adj : Adj α) (u v : α) : Adj α :=
  dictAdjust (dictAdjust adj u (fun s => setAdd s v)) v (fun s => setAdd s u)

theorem memAdj_insertEdge {adj : Adj α} {u v : α}
    (hu : (dictGet adj u).isSome = true) (hv : (dictGet adj v).isSome = true)
    (huv : u ≠ v) (a b : α) :
    memAdj (insertEdgeAdj adj u v) a b ↔
      memAdj adj a b ∨ (a = u ∧ b = v) ∨ (a = v ∧ b = u) := by
  obtain ⟨su, hsu⟩ := Option.isSome_iff_exists.mp hu
  obtain ⟨sv, hsv⟩ := Option.isSome_iff_exists.mp hv
  unfold memAdj insertEdgeAdj
  rw [dictGet_dictAdjust]
  by_cases hav : a = v
  · subst hav
    rw [if_pos rfl, dictGet_dictAdjust, if_neg (Ne.symm huv), hsv]
    simp [mem_setAdd, Ne.symm huv, hsv, memAdj]
  · rw [if_neg hav, dictGet_dictAdjust]
    by_cases hau : a = u
    · subst hau
      rw [if_pos rfl, hsu]
      simp [mem_setAdd, hsu, memAdj, hav]
    · rw [if_neg hau]
      simp [hau, hav]

theorem keys_insertEdge (adj : Adj α) (u v : α) :
    (insertEdgeAdj adj u v).map Prod.fst = adj.map Prod.fst := by
  unfold insertEdgeAdj
  rw [keys_dictAdjust, keys_dictAdjust]

theorem valsNodup_insertEdge {adj : Adj α} (hv : valsNodup adj) (u v : α) :
    valsNodup (insertEdgeAdj adj u v) := by
  unfold insertEdgeAdj
  exact valsNodup_dictAdjust (valsNodup_dictAdjust hv (fun s h => nodup_setAdd _ h))
    (fun s h => nodup_setAdd _ h)

theorem edgeFinset_insertEdge {adj : Adj α} (hk : keysNodup adj)
    (hu : (dictGet adj u).isSome = true) (hv : (dictGet adj v).isSome = true)
    (huv : u ≠ v) :
    edgeFinset (insertEdgeAdj adj u v) = insert (Sym2.mk (u, v)) (edgeFinset adj) := by
  have hk' : keysNodup (insertEdgeAdj adj u v) := by
    unfold keysNodup
    rw [keys_insertEdge]; exact hk
  ext z
  induction z using Sym2.ind with
  | _ a b =>
    rw [mem_edgeFinset hk', Finset.mem_insert, mem_edgeFinset hk,
        memAdj_insertEdge hu hv huv, memAdj_insertEdge hu hv huv, Sym2.eq_iff]
    tauto

theorem runState_ok {σ : Type} (s : σ) :
    runState (Except.ok (ε := PyErr × σ) s) = s := rfl

theorem runState_error {σ : Type} (e : PyErr) (s : σ) :
    runState (Except.error (α := σ) (e, s)) = s := rfl

namespace UndirectedGraph

theorem add_edge_self (g : UndirectedGraph α) (x : α) :
    g.add_edge x x = .error (.valueError, g) := by
  unfold add_edge
  simp

theorem add_edge_eq (g : UndirectedGraph α) {u v : α} (h : u ≠ v) :
    g.add_edge u v =
      (if edgeViewContains ((g.add_node u).add_node v).adj u v then
        Except.ok ((g.add_node u).add_node v)
      else
        Except.ok { adj := insertEdgeAdj ((g.add_node u).add_node v).adj u v,
                    _number_of_edges :=
                      ((g.add_node u).add_node v)._number_of_edges + 1 }) := by
  unfold add_edge add_node insertEdgeAdj
  rw [if_neg h]

theorem UInv_add_edge {g : UndirectedGraph α} (hI : UInv g) (u v : α) :
    UInv (runState (g.add_edge u v)) := by
  by_cases huv : u = v
  · subst huv
    rw [add_edge_self, runState_error]
    exact hI
  · rw [add_edge_eq g huv]
    have hI2 : UInv ((g.add_node u).add_node v) := UInv_add_node (UInv_add_node hI u) v
    set g2 := (g.add_node u).add_node v with hg2
    have hu : (dictGet g2.adj u).isSome = true :=
      isSome_add_node_mono _ v (isSome_add_node_self g u)
    have hv : (dictGet g2.adj v).isSome = true := isSome_add_node_self _ v
    by_cases hc : edgeViewContains g2.adj u v
    · rw [if_pos hc, runState_ok]
      exact hI2
    · rw [if_neg hc, runState_ok]
      have hmem : ¬ memAdj g2.adj u v := fun hm => hc ((edgeViewContains_iff _ _ _).mpr hm)
      have hmem' : ¬ memAdj g2.adj v u := fun hm => hmem (hI2.symm v u hm)
      have hnotin : Sym2.mk (u, v) ∉ edgeFinset g2.adj := by
        rw [mem_edgeFinset hI2.keys]
        tauto
      refine ⟨?_, valsNodup_insertEdge hI2.vals u v, ?_, ?_, ?_⟩
      · unfold keysNodup
        rw [keys_insertEdge]
        exact hI2.keys
      · intro a b hab
        rw [memAdj_insertEdge hu hv huv] at hab ⊢
        rcases hab with h | h | h
        · exact Or.inl (hI2.symm a b h)
        · exact Or.inr (Or.inr ⟨h.2, h.1⟩)
        · exact Or.inr (Or.inl ⟨h.2, h.1⟩)
      · intro a ha
        rw [memAdj_insertEdge hu hv huv] at ha
        rcases ha with h | h | h
        · exact hI2.irrefl a h
        · exact huv (h.1.symm.trans h.2)
        · exact huv (h.2.symm.trans h.1)
      · show g2._number_of_edges + 1 = _
        rw [show (insertEdgeAdj g2.adj u v) =
              ({ adj := insertEdgeAdj g2.adj u v,
                 _number_of_edges := g2._number_of_edges + 1 } :
                UndirectedGraph α).adj from rfl] at *
        rw [edgeFinset_insertEdge hI2.keys hu hv huv,
            Finset.card_insert_of_not_mem hnotin, hI2.count]
        push_cast
        ring

end UndirectedGraph

/-! ### Preservation lemmas: `remove_node` (undirected) -/

namespace UndirectedGraph

/-- The adjacency storage produced by the neighbor loop of `remove_node`:
the label is discarded from each neighbor's set. -/
def removeFold (adj : Adj α) (label : α) (nbrs : List α) : Adj α :=
  nbrs.foldl (fun a n => dictAdjust a n (fun s => setDiscard s label)) adj

theorem removeLoop_ok (label : α) :
    ∀ (nbrs : List α) (g : UndirectedGraph α),
      (∀ n ∈ nbrs, (dictGet g.adj n).isSome = true) →
      removeLoop label nbrs g =
        .ok ⟨removeFold g.adj label nbrs, g._number_of_edges - nbrs.length⟩ := by
  intro nbrs
  induction nbrs with
  | nil =>
    intro g _
    simp [removeLoop, removeFold]
  | cons n rest ih =>
    intro g h
    have hn := h n (List.mem_cons_self _ _)
    obtain ⟨s, hs⟩ := Option.isSome_iff_exists.mp hn
    have h' : ∀ m ∈ rest,
        (dictGet (dictAdjust g.adj n (fun s => setDiscard s label)) m).isSome = true := by
      intro m hm
      rw [dictGet_dictAdjust]
      by_cases hmn : m = n
      · subst hmn
        rw [if_pos rfl, hs]
        simp
      · rw [if_neg hmn]
        exact h m (List.mem_cons_of_mem _ hm)
    simp only [removeLoop, hs]
    rw [ih _ h']
    simp only [removeFold, List.foldl_cons, List.length_cons]
    congr 1
    congr 1
    push_cast
    omega

theorem dictGet_removeFold (label w : α) :
    ∀ (nbrs : List α) (adj : Adj α), nbrs.Nodup →
      dictGet (removeFold adj label nbrs) w =
        if w ∈ nbrs then (dictGet adj w).map (fun s => setDiscard s label)
        else dictGet adj w := by
  intro nbrs
  induction nbrs with
  | nil =>
    intro adj _
    simp [removeFold]
  | cons n rest ih =>
    intro adj hnd
    rw [List.nodup_cons] at hnd
    obtain ⟨hn, hrest⟩ := hnd
    show dictGet (removeFold (dictAdjust adj n fun s => setDiscard s label) label rest) w = _
    rw [ih _ hrest]
    by_cases hw : w ∈ rest
    · have hwn : w ≠ n := fun h => hn (h ▸ hw)
      rw [if_pos hw, dictGet_dictAdjust, if_neg hwn, if_pos (List.mem_cons_of_mem _ hw)]
    · by_cases hwn : w = n
      · subst hwn
        rw [if_neg hw, dictGet_dictAdjust, if_pos rfl, if_pos (List.mem_cons_self _ _)]
      · rw [if_neg hw, dictGet_dictAdjust, if_neg hwn, if_neg (by simp [hwn, hw])]

theorem keys_removeFold (label : α) :
    ∀ (nbrs : List α) (adj : Adj α),
      (removeFold adj label nbrs).map Prod.fst = adj.map Prod.fst := by
  intro nbrs
  induction nbrs with
  | nil => intro adj; rfl
  | cons n rest ih =>
    intro adj
    show (removeFold (dictAdjust adj n fun s => setDiscard s label) label rest).map Prod.fst = _
    rw [ih, keys_dictAdjust]

theorem valsNodup_removeFold (label : α) :
    ∀ (nbrs : List α) {adj : Adj α}, valsNodup adj →
      valsNodup (removeFold adj label nbrs) := by
  intro nbrs
  induction nbrs with
  | nil => intro adj h; exact h
  | cons n rest ih =>
    intro adj h
    exact ih (valsNodup_dictAdjust h
      (fun s hs => by simpa [setDiscard] using hs.erase label))

theorem remove_node_eq {g : UndirectedGraph α} {label : α} {nbrs : List α}
    (hn : dictGet g.adj label = some nbrs)
    (h : ∀ n ∈ nbrs, (dictGet g.adj n).isSome = true) :
    g.remove_node label =
      .ok ⟨dictDel (removeFold g.adj label nbrs) label,
           g._number_of_edges - nbrs.length⟩ := by
  simp only [remove_node, hn]
  rw [removeLoop_ok label nbrs g h]

theorem memAdj_remove {g : UndirectedGraph α} (hI : UInv g) {label : α}
    {nbrs : List α} (hn : dictGet g.adj label = some nbrs) (a b : α) :
    memAdj (dictDel (removeFold g.adj label nbrs) label) a b ↔
      memAdj g.adj a b ∧ a ≠ label ∧ b ≠ label := by
  have hnd : nbrs.Nodup := hI.vals _ (dictGet_mem hn)
  have key2 : ∀ x, memAdj g.adj x label → x ∈ nbrs := by
    intro x hx
    have h2 := hI.symm x label hx
    unfold memAdj at h2
    rw [hn] at h2
    simpa using h2
  unfold memAdj
  rw [dictGet_dictDel, dictGet_removeFold label a nbrs g.adj hnd]
  by_cases hal : a = label
  · subst hal
    rw [if_pos rfl]
    simp
  · rw [if_neg hal]
    by_cases han : a ∈ nbrs
    · rw [if_pos han]
      cases hga : dictGet g.adj a with
      | none => simp [memAdj, hga]
      | some s =>
        have hsnd : s.Nodup := hI.vals _ (dictGet_mem hga)
        simp only [Option.map_some', Option.getD_some]
        unfold setDiscard
        by_cases hbl : b = label
        · subst hbl
          simp [List.Nodup.mem_erase_iff hsnd, memAdj, hga, hal]
        · simp [List.mem_erase_of_ne hbl, memAdj, hga, hal, hbl]
    · rw [if_neg han]
      by_cases hbl : b = label
      · subst hbl
        constructor
        · intro hm
          exact absurd (key2 a hm) han
        · rintro ⟨-, -, hb⟩
          exact absurd rfl hb
      · simp [memAdj, hal, hbl]

end UndirectedGraph

namespace UndirectedGraph

theorem keysNodup_remove {g : UndirectedGraph α} (hI : UInv g) (label : α)
    {nbrs : List α} :
    keysNodup (dictDel (removeFold g.adj label nbrs) label) := by
  have h1 : ((dictDel (removeFold g.adj label nbrs) label).map Prod.fst).Sublist
      ((removeFold g.adj label nbrs).map Prod.fst) :=
    (dictDel_sublist _ _).map _
  have h2 := keys_removeFold label nbrs g.adj
  exact h1.nodup (h2 ▸ hI.keys)

theorem edgeFinset_remove {g : UndirectedGraph α} (hI : UInv g) {label : α}
    {nbrs : List α} (hn : dictGet g.adj label = some nbrs) :
    edgeFinset (dictDel (removeFold g.adj label nbrs) label) =
      edgeFinset g.adj \ (nbrs.toFinset.image (fun n => Sym2.mk (label, n))) := by
  have key1 : ∀ x, memAdj g.adj label x → x ∈ nbrs := by
    intro x hx
    unfold memAdj at hx
    rw [hn] at hx
    simpa using hx
  have key2 : ∀ x, memAdj g.adj x label → x ∈ nbrs := fun x hx =>
    key1 x (hI.symm x label hx)
  ext z
  induction z using Sym2.ind with
  | _ a b =>
    rw [mem_edgeFinset (keysNodup_remove hI label), Finset.mem_sdiff,
        mem_edgeFinset hI.keys, memAdj_remove hI hn, memAdj_remove hI hn]
    simp only [Finset.mem_image, List.mem_toFinset]
    constructor
    · rintro (⟨hm, ha, hb⟩ | ⟨hm, hb, ha⟩)
      · refine ⟨Or.inl hm, ?_⟩
        rintro ⟨n, -, heq⟩
        rcases Sym2.eq_iff.mp heq with ⟨h1, -⟩ | ⟨h1, -⟩
        · exact ha h1.symm
        · exact hb h1.symm
      · refine ⟨Or.inr hm, ?_⟩
        rintro ⟨n, -, heq⟩
        rcases Sym2.eq_iff.mp heq with ⟨h1, -⟩ | ⟨h1, -⟩
        · exact ha h1.symm
        · exact hb h1.symm
    · rintro ⟨hm | hm, hno⟩
      · refine Or.inl ⟨hm, ?_, ?_⟩
        · intro ha
          exact hno ⟨b, key1 b (ha ▸ hm), by rw [ha]⟩
        · intro hb
          refine hno ⟨a, key2 a (hb ▸ hm), ?_⟩
          rw [hb]
          exact Sym2.eq_iff.mpr (Or.inr ⟨rfl, rfl⟩)
      · refine Or.inr ⟨hm, ?_, ?_⟩
        · intro hb
          refine hno ⟨a, key1 a (hb ▸ hm), ?_⟩
          rw [hb]
          exact Sym2.eq_iff.mpr (Or.inr ⟨rfl, rfl⟩)
        · intro ha
          exact hno ⟨b, key2 b (ha ▸ hm), by rw [ha]⟩

theorem card_edgeFinset_remove {g : UndirectedGraph α} (hI : UInv g)
    {label : α} {nbrs : List α} (hn : dictGet g.adj label = some nbrs) :
    (edgeFinset (dictDel (removeFold g.adj label nbrs) label)).card =
      (edgeFinset g.adj).card - nbrs.length ∧
      nbrs.length ≤ (edgeFinset g.adj).card := by
  have hnd : nbrs.Nodup := hI.vals _ (dictGet_mem hn)
  have hsub : (nbrs.toFinset.image (fun n => Sym2.mk (label, n))) ⊆ edgeFinset g.adj := by
    intro z hz
    obtain ⟨n, hn', heq⟩ := Finset.mem_image.mp hz
    rw [List.mem_toFinset] at hn'
    have hm : memAdj g.adj label n := by
      unfold memAdj
      rw [hn]
      simpa using hn'
    rw [← heq, mem_edgeFinset hI.keys]
    exact Or.inl hm
  have hinj : Set.InjOn (fun n => Sym2.mk (label, n)) (nbrs.toFinset : Set α) := by
    intro x _ y _ hxy
    rcases Sym2.eq_iff.mp hxy with ⟨-, h2⟩ | ⟨h1, h2⟩
    · exact h2
    · rw [h2, ← h1]
  have hcard : (nbrs.toFinset.image (fun n => Sym2.mk (label, n))).card = nbrs.length := by
    rw [Finset.card_image_of_injOn hinj, List.toFinset_card_of_nodup hnd]
  constructor
  · rw [edgeFinset_remove hI hn, Finset.card_sdiff hsub, hcard]
  · rw [← hcard]
    exact Finset.card_le_card hsub

theorem remove_node_total {g : UndirectedGraph α} (hI : UInv g) (label : α) :
    ∃ g', g.remove_node label = .ok g' ∧ UInv g' := by
  cases hn : dictGet g.adj label with
  | none =>
    refine ⟨g, ?_, hI⟩
    unfold remove_node
    rw [hn]
  | some nbrs =>
    have h : ∀ n ∈ nbrs, (dictGet g.adj n).isSome = true := by
      intro n hmem
      have hm : memAdj g.adj label n := by
        unfold memAdj
        rw [hn]
        simpa using hmem
      exact memAdj_key (hI.symm label n hm)
    refine ⟨_, remove_node_eq hn h, ?_⟩
    obtain ⟨hcard, hle⟩ := card_edgeFinset_remove hI hn
    refine ⟨keysNodup_remove hI label, ?_, ?_, ?_, ?_⟩
    · intro p hp
      exact valsNodup_removeFold label nbrs hI.vals p
        ((dictDel_sublist _ _).subset hp)
    · intro a b hab
      rw [memAdj_remove hI hn] at hab ⊢
      exact ⟨hI.symm a b hab.1, hab.2.2, hab.2.1⟩
    · intro a ha
      rw [memAdj_remove hI hn] at ha
      exact hI.irrefl a ha.1
    · show g._number_of_edges - nbrs.length = _
      rw [hI.count, hcard]
      omega

theorem UInv_remove_node {g : UndirectedGraph α} (hI : UInv g) (x : α) :
    UInv (runState (g.remove_node x)) := by
  obtain ⟨g', hok, hI'⟩ := remove_node_total hI x
  rw [hok, runState_ok]
  exact hI'

end UndirectedGraph

/-- Every reachable undirected graph state satisfies the structural
invariant. -/
theorem UReachable_inv {g : UndirectedGraph α} (h : UReachable g) : UInv g := by
  induction h with
  | empty =>
    refine ⟨by simp [keysNodup, UndirectedGraph.empty],
      by intro p hp; simp [UndirectedGraph.empty] at hp, ?_, ?_, ?_⟩
    · intro u v hm
      simp [memAdj, dictGet, UndirectedGraph.empty] at hm
    · intro u hm
      simp [memAdj, dictGet, UndirectedGraph.empty] at hm
    · simp [edgeFinset, allPairs, UndirectedGraph.empty]
  | add_node g x _ ih => exact UndirectedGraph.UInv_add_node ih x
  | add_edge g u v _ ih => exact UndirectedGraph.UInv_add_edge ih u v
  | remove_node g x _ ih => exact UndirectedGraph.UInv_remove_node ih x

/-! ### The undirected edge iterator -/

/-- First-occurrence deduplication of a pair sequence by unordered key:
the flattened form of the nested loops of `_UndirectedEdgeView.__iter__`. -/
def dedupScan : List (α × α) → Finset (Sym2 α) → List (α × α)
  | [], _ => []
  | e :: rest, seen =>
    if Sym2.mk e ∈ seen then dedupScan rest seen
    else e :: dedupScan rest (insert (Sym2.mk e) seen)

theorem iterInner_eq (u : α) :
    ∀ (l : List α) (seen : Finset (Sym2 α)),
      (iterInner u l seen).1 = dedupScan (l.map (fun v => (u, v))) seen ∧
      (iterInner u l seen).2 = seen ∪ (l.map (fun v => Sym2.mk (u, v))).toFinset := by
  intro l
  induction l with
  | nil =>
    intro seen
    simp [iterInner, dedupScan]
  | cons v rest ih =>
    intro seen
    by_cases h : Sym2.mk (u, v) ∈ seen
    · obtain ⟨h1, h2⟩ := ih seen
      have hset : seen ∪ ((v :: rest).map (fun x => Sym2.mk (u, x))).toFinset =
          seen ∪ (rest.map (fun x => Sym2.mk (u, x))).toFinset := by
        ext z
        simp only [List.map_cons, List.toFinset_cons, Finset.mem_union,
          Finset.mem_insert, List.mem_toFinset]
        constructor
        · rintro (hz | hz | hz)
          · exact Or.inl hz
          · exact Or.inl (hz ▸ h)
          · exact Or.inr hz
        · rintro (hz | hz)
          · exact Or.inl hz
          · exact Or.inr (Or.inr hz)
      refine ⟨?_, ?_⟩
      · rw [show iterInner u (v :: rest) seen = iterInner u rest seen from by
          rw [iterInner, if_pos h], h1]
        simp [dedupScan, h]
      · rw [show iterInner u (v :: rest) seen = iterInner u rest seen from by
          rw [iterInner, if_pos h], h2, hset]
    · obtain ⟨h1, h2⟩ := ih (insert (Sym2.mk (u, v)) seen)
      have hred : iterInner u (v :: rest) seen =
          ((u, v) :: (iterInner u rest (insert (Sym2.mk (u, v)) seen)).1,
           (iterInner u rest (insert (Sym2.mk (u, v)) seen)).2) := by
        rw [iterInner, if_neg h]
      refine ⟨?_, ?_⟩
      · rw [hred]
        simp only [List.map_cons]
        rw [dedupScan, if_neg h]
        simp [h1]
      · rw [hred]
        simp only [h2, List.map_cons, List.toFinset_cons]
        ext z
        simp only [Finset.mem_union, Finset.mem_insert, List.mem_toFinset]
        tauto

theorem dedupScan_append (l2 : List (α × α)) :
    ∀ (l1 : List (α × α)) (seen : Finset (Sym2 α)),
      dedupScan (l1 ++ l2) seen =
        dedupScan l1 seen ++ dedupScan l2 (seen ∪ (l1.map Sym2.mk).toFinset) := by
  intro l1
  induction l1 with
  | nil =>
    intro seen
    simp [dedupScan]
  | cons e rest ih =>
    intro seen
    by_cases h : Sym2.mk e ∈ seen
    · rw [List.cons_append, dedupScan, if_pos h, dedupScan, if_pos h, ih]
      have hset : seen ∪ (rest.map Sym2.mk).toFinset =
          seen ∪ ((e :: rest).map Sym2.mk).toFinset := by
        ext z
        simp only [List.map_cons, List.toFinset_cons, Finset.mem_union,
          Finset.mem_insert, List.mem_toFinset]
        constructor
        · rintro (hz | hz)
          · exact Or.inl hz
          · exact Or.inr (Or.inr hz)
        · rintro (hz | hz | hz)
          · exact Or.inl hz
          · exact Or.inl (hz ▸ h)
          · exact Or.inr hz
      rw [hset]
    · rw [List.cons_append, dedupScan, if_neg h, dedupScan, if_neg h, ih,
          List.cons_append]
      have hset : insert (Sym2.mk e) seen ∪ (rest.map Sym2.mk).toFinset =
          seen ∪ ((e :: rest).map Sym2.mk).toFinset := by
        ext z
        simp only [List.map_cons, List.toFinset_cons, Finset.mem_union,
          Finset.mem_insert, List.mem_toFinset]
        tauto
      rw [hset]

theorem iterOuter_eq (adj : Adj α) :
    ∀ seen, iterOuter adj seen = dedupScan (allPairs adj) seen := by
  induction adj with
  | nil =>
    intro seen
    simp [iterOuter, allPairs, dedupScan]
  | cons p rest ih =>
    intro seen
    obtain ⟨u, nbrs⟩ := p
    show (iterInner u nbrs seen).1 ++ iterOuter rest (iterInner u nbrs seen).2 = _
    obtain ⟨h1, h2⟩ := iterInner_eq u nbrs seen
    rw [h1, h2, ih]
    have hall : allPairs ((u, nbrs) :: rest) =
        (nbrs.map (fun v => (u, v))) ++ allPairs rest := by
      simp [allPairs]
    rw [hall, dedupScan_append]
    congr 2
    rw [List.map_map]
    rfl

theorem edgeIter_eq (adj : Adj α) : edgeIter adj = dedupScan (allPairs adj) ∅ :=
  iterOuter_eq adj ∅

theorem mem_dedupScan {e : α × α} :
    ∀ {l : List (α × α)} {seen : Finset (Sym2 α)}, e ∈ dedupScan l seen → e ∈ l := by
  intro l
  induction l with
  | nil => intro seen h; simp [dedupScan] at h
  | cons f rest ih =>
    intro seen h
    by_cases hf : Sym2.mk f ∈ seen
    · rw [dedupScan, if_pos hf] at h
      exact List.mem_cons_of_mem _ (ih h)
    · rw [dedupScan, if_neg hf] at h
      rcases List.mem_cons.mp h with h | h
      · exact h ▸ List.mem_cons_self _ _
      · exact List.mem_cons_of_mem _ (ih h)

theorem countP_dedupScan (k : Sym2 α) :
    ∀ (l : List (α × α)) (seen : Finset (Sym2 α)),
      (dedupScan l seen).countP (fun e => decide (Sym2.mk e = k)) =
        if k ∈ seen then 0 else if k ∈ l.map Sym2.mk then 1 else 0 := by
  intro l
  induction l with
  | nil =>
    intro seen
    simp [dedupScan]
  | cons e rest ih =>
    intro seen
    by_cases hs : Sym2.mk e ∈ seen
    · rw [dedupScan, if_pos hs, ih]
      by_cases hk : k ∈ seen
      · simp [hk]
      · have hne : ¬ k = Sym2.mk e := fun h => hk (h ▸ hs)
        rw [if_neg hk, if_neg hk]
        simp only [List.map_cons]
        by_cases hr : k ∈ List.map Sym2.mk rest
        · rw [if_pos hr, if_pos (List.mem_cons_of_mem _ hr)]
        · rw [if_neg hr, if_neg (fun hcc => (List.mem_cons.mp hcc).elim hne hr)]
    · rw [dedupScan, if_neg hs, List.countP_cons, ih]
      simp only [List.map_cons]
      by_cases hk : k = Sym2.mk e
      · subst hk
        simp [hs]
      · have hmem : (k ∈ insert (Sym2.mk e) seen) ↔ k ∈ seen := by
          simp [hk]
        have hne : ¬ Sym2.mk e = k := fun h => hk h.symm
        have hstep : ∀ c : Prop, ∀ h : Decidable c, (c ↔ k ∈ List.map Sym2.mk rest) →
            (if c then (1 : Nat) else 0) = if k ∈ Sym2.mk e :: List.map Sym2.mk rest then 1 else 0 := by
          intro c hc hiff
          by_cases hr : k ∈ List.map Sym2.mk rest
          · rw [if_pos (hiff.mpr hr), if_pos (List.mem_cons_of_mem _ hr)]
          · rw [if_neg (fun hcc => hr (hiff.mp hcc)),
                if_neg (fun hcc => (List.mem_cons.mp hcc).elim hk hr)]
        by_cases hk2 : k ∈ seen
        · rw [if_pos (hmem.mpr hk2), if_pos hk2]
          simp [hne]
        · rw [if_neg (fun hcc => hk2 (hmem.mp hcc)), if_neg hk2]
          simp only [hne, decide_eq_false, Bool.false_eq_true, if_false, Nat.add_zero]
          exact hstep _ _ Iff.rfl

/-! ### Helper lemmas for the claim theorems -/

theorem DirectedGraph.add_node_key_isSome (g : DirectedGraph α) (x : α) :
    (dictGet (g.add_node x).adj x).isSome = true := by
  unfold DirectedGraph.add_node
  by_cases h : (dictGet g.adj x).isSome
  · rwa [if_pos h]
  · rw [if_neg h]
    have hnone : dictGet g.adj x = none := Option.not_isSome_iff_eq_none.mp h
    show (dictGet (dictSet g.adj x []) x).isSome = true
    rw [dictSet_eq_append _ hnone, dictGet_append_of_none _ hnone]
    simp [dictGet]

/-- A finite, checkable sufficient condition for the symmetry invariant. -/
theorem symm_of_entries {adj : Adj α}
    (h : ∀ p ∈ adj, ∀ v ∈ p.2, memAdj adj v p.1) : Symm adj := by
  intro u v hm
  rw [memAdj_iff] at hm
  obtain ⟨s, hs', hv⟩ := hm
  exact h (u, s) (dictGet_mem hs') v hv

/-! ### Claim theorems -/

/-- Claim C9: calling `add_node(x)` twice, on an undirected or a directed
graph, leaves the graph state identical to calling it once (in particular
its nodes and edges are identical); the second call on a present label
changes nothing. -/
theorem add_node_idempotent :
    (∀ (g : UndirectedGraph α) (x : α), (g.add_node x).add_node x = g.add_node x) ∧
    (∀ (g : DirectedGraph α) (x : α), (g.add_node x).add_node x = g.add_node x) := by
  constructor
  · intro g x
    have h2 := UndirectedGraph.isSome_add_node_self g x
    show (if (dictGet (g.add_node x).adj x).isSome then g.add_node x
          else { g.add_node x with adj := dictSet (g.add_node x).adj x [] }) =
        g.add_node x
    rw [if_pos h2]
  · intro g x
    have h2 := DirectedGraph.add_node_key_isSome g x
    show (if (dictGet (g.add_node x).adj x).isSome then g.add_node x
          else { g.add_node x with adj := dictSet (g.add_node x).adj x [] }) =
        g.add_node x
    rw [if_pos h2]

/-- Claim C3: on a new directed graph, `add_edge(1, 2)` called twice leaves
the edge counter at 2 (it is incremented unconditionally) while
`successors(1)` is still the one-element set `{2}`. -/
theorem directed_double_add_edge_counts_twice :
    (((DirectedGraph.empty (α := Nat)).add_edge 1 2).add_edge 1 2)._number_of_edges = 2 ∧
    (((DirectedGraph.empty (α := Nat)).add_edge 1 2).add_edge 1 2).successors 1 =
      .ok [2] := by
  constructor <;> rfl

/-- Claim C5: on any undirected graph, `add_edge(x, x)` fails with the
self-loop validation error (`InvalidEdgeError` in the specification, the
`ValueError` raised by the source) and the failed call leaves the graph
state completely unchanged: the error carries exactly the pre-call state,
so `nodes`, `edges` and the edge counter are untouched and node `x` is not
created. -/
theorem undirected_self_loop_add_edge_rejected_unchanged
    (g : UndirectedGraph α) (x : α) :
    g.add_edge x x = .error (.valueError, g) ∧
    (runState (g.add_edge x x)).nodes = g.nodes ∧
    (runState (g.add_edge x x)).edges = g.edges ∧
    (runState (g.add_edge x x))._number_of_edges = g._number_of_edges := by
  refine ⟨UndirectedGraph.add_edge_self g x, ?_, ?_, ?_⟩ <;>
    rw [UndirectedGraph.add_edge_self, runState_error]

/-- Claim C7: the containment test of the edges view is total and never
raises: it is true exactly when `v` lies in the adjacency set stored for
`u` (the forward map of a directed graph), and it returns `false` rather
than failing whenever `u` is not a key of that storage. -/
theorem edge_view_containment_total (g : UndirectedGraph α)
    (dg : DirectedGraph α) (u v : α) :
    (g.edges.contains u v = true ↔ ∃ s, dictGet g.adj u = some s ∧ v ∈ s) ∧
    (dictGet g.adj u = none → g.edges.contains u v = false) ∧
    (dg.edges.contains u v = true ↔ ∃ s, dictGet dg.adj u = some s ∧ v ∈ s) ∧
    (dictGet dg.adj u = none → dg.edges.contains u v = false) := by
  refine ⟨?_, ?_, ?_, ?_⟩
  · rw [show g.edges.contains u v = edgeViewContains g.adj u v from rfl,
        edgeViewContains_iff, memAdj_iff]
  · intro h
    show edgeViewContains g.adj u v = false
    unfold edgeViewContains
    rw [h]
  · rw [show dg.edges.contains u v = edgeViewContains dg.adj u v from rfl,
        edgeViewContains_iff, memAdj_iff]
  · intro h
    show edgeViewContains dg.adj u v = false
    unfold edgeViewContains
    rw [h]

/-- Witness for claim C7 at a concrete state: the label 5 is not a key of
either graph, and the containment test returns `false` there instead of
failing. -/
theorem edge_view_containment_total_w :
    dictGet (UndirectedGraph.mk [((1 : Nat), [2]), (2, [1])] 1).adj 5 = none ∧
    (UndirectedGraph.mk [((1 : Nat), [2]), (2, [1])] 1).edges.contains 5 2 = false ∧
    dictGet (DirectedGraph.mk [((1 : Nat), [2])] [(2, [1])] 1).adj 5 = none ∧
    (DirectedGraph.mk [((1 : Nat), [2])] [(2, [1])] 1).edges.contains 5 2 = false :=
  ⟨rfl,
   (edge_view_containment_total (UndirectedGraph.mk [((1 : Nat), [2]), (2, [1])] 1)
     (DirectedGraph.mk [((1 : Nat), [2])] [(2, [1])] 1) 5 2).2.1 rfl,
   rfl,
   (edge_view_containment_total (UndirectedGraph.mk [((1 : Nat), [2]), (2, [1])] 1)
     (DirectedGraph.mk [((1 : Nat), [2])] [(2, [1])] 1) 5 2).2.2.2 rfl⟩

/-- Claim C1 (code bug): the claimed invariant — identical key sets and
forward/backward consistency for every reachable directed graph state — is
violated by the code: `add_node` inserts the label only into the forward
map, so after `add_node(1)` on a fresh directed graph the forward key set
is `{1}` while the backward key set is empty. -/
theorem directed_add_node_breaks_key_set_invariant :
    DReachable ((DirectedGraph.empty (α := Nat)).add_node 1) ∧
    1 ∈ ((DirectedGraph.empty (α := Nat)).add_node 1).adj.map Prod.fst ∧
    1 ∉ ((DirectedGraph.empty (α := Nat)).add_node 1).back_adj.map Prod.fst := by
  refine ⟨DReachable.add_node _ 1 DReachable.empty, ?_, ?_⟩ <;> decide

/-- Claim C2 (code bug): `remove_node` is not total on reachable directed
states: after `add_node(1)` on a fresh directed graph, `remove_node(1)`
raises `KeyError` at the unguarded read of `self.back_adj[node]`. -/
theorem directed_remove_node_raises_on_isolated_node :
    DReachable ((DirectedGraph.empty (α := Nat)).add_node 1) ∧
    ((DirectedGraph.empty (α := Nat)).add_node 1).remove_node 1 =
      .error (.keyError, (DirectedGraph.empty (α := Nat)).add_node 1) :=
  ⟨DReachable.add_node _ 1 DReachable.empty, rfl⟩

/-- Claim C4: for every undirected graph state reachable by a sequence of
operations (in particular any sequence of `add_edge`/`remove_node` calls),
the length reported by the edges view equals the number of distinct
unordered pairs currently connected in the adjacency mapping. -/
theorem undirected_edge_view_len_counts_distinct_pairs
    {g : UndirectedGraph α} (h : UReachable g) :
    (g.edges).len = (((edgeFinset (g.edges)._adj).card : Int)) := by
  have hI := UReachable_inv h
  show g._number_of_edges = _
  exact hI.count

/-- Witness for claim C4 at the reachable state obtained by
`add_edge(1, 2)` on a fresh undirected graph. -/
theorem undirected_edge_view_len_counts_distinct_pairs_w :
    UReachable (runState ((UndirectedGraph.empty (α := Nat)).add_edge 1 2)) ∧
    ((runState ((UndirectedGraph.empty (α := Nat)).add_edge 1 2)).edges).len =
      (((edgeFinset ((runState ((UndirectedGraph.empty (α := Nat)).add_edge 1 2)).edges)._adj).card : Int)) :=
  ⟨UReachable.add_edge _ 1 2 UReachable.empty,
   undirected_edge_view_len_counts_distinct_pairs
     (UReachable.add_edge _ 1 2 UReachable.empty)⟩

/-- Claim C8: on every reachable undirected graph state, for all currently
known labels `u` and `v` (those on which `neighbors` succeeds), `v` is in
`neighbors(u)` exactly when `u` is in `neighbors(v)`: every operation
preserves the symmetry of the adjacency mapping. -/
theorem undirected_neighbors_symmetric {g : UndirectedGraph α}
    (h : UReachable g) (u v : α) {su sv : List α}
    (hu : g.neighbors u = .ok su) (hv : g.neighbors v = .ok sv) :
    v ∈ su ↔ u ∈ sv := by
  have hI := UReachable_inv h
  have hgu : dictGet g.adj u = some su := by
    cases hd : dictGet g.adj u with
    | none =>
      simp only [UndirectedGraph.neighbors, hd] at hu
      exact Except.noConfusion hu
    | some s =>
      simp only [UndirectedGraph.neighbors, hd, Except.ok.injEq] at hu
      rw [hu]
  have hgv : dictGet g.adj v = some sv := by
    cases hd : dictGet g.adj v with
    | none =>
      simp only [UndirectedGraph.neighbors, hd] at hv
      exact Except.noConfusion hv
    | some s =>
      simp only [UndirectedGraph.neighbors, hd, Except.ok.injEq] at hv
      rw [hv]
  have memu : ∀ x, memAdj g.adj u x ↔ x ∈ su := by
    intro x
    unfold memAdj
    rw [hgu]
    simp
  have memv : ∀ x, memAdj g.adj v x ↔ x ∈ sv := by
    intro x
    unfold memAdj
    rw [hgv]
    simp
  constructor
  · intro hx
    exact (memv u).mp (hI.symm u v ((memu v).mpr hx))
  · intro hx
    exact (memu v).mp (hI.symm v u ((memv u).mpr hx))

/-- Witness for claim C8 at the reachable state obtained by
`add_edge(1, 2)` on a fresh undirected graph, where `neighbors(1) = {2}`
and `neighbors(2) = {1}`. -/
theorem undirected_neighbors_symmetric_w :
    UReachable (runState ((UndirectedGraph.empty (α := Nat)).add_edge 1 2)) ∧
    (runState ((UndirectedGraph.empty (α := Nat)).add_edge 1 2)).neighbors 1 =
      .ok [2] ∧
    (runState ((UndirectedGraph.empty (α := Nat)).add_edge 1 2)).neighbors 2 =
      .ok [1] ∧
    ((2 : Nat) ∈ [2] ↔ (1 : Nat) ∈ [1]) :=
  ⟨UReachable.add_edge _ 1 2 UReachable.empty, by rfl, by rfl,
   undirected_neighbors_symmetric (UReachable.add_edge _ 1 2 UReachable.empty)
     1 2 (by rfl) (by rfl)⟩

/-- Claim C6: on every undirected graph state with well-formed storage
satisfying the symmetry invariant, iterating the edges view yields each
stored undirected edge exactly once — for every `u`, `v` with `v` in the
adjacency set of `u`, exactly one pair equal to `{u, v}` (as an unordered
pair, so either `(u, v)` or `(v, u)`, never both, never neither) occurs in
the yielded sequence — and nothing else is yielded. -/
theorem undirected_edge_iteration_exactly_once {g : UndirectedGraph α}
    (hk : keysNodup g.adj) (hs : Symm g.adj) :
    (∀ u v, memAdj g.adj u v →
      (edgeIter g.adj).countP (fun e => decide (Sym2.mk e = Sym2.mk (u, v))) = 1) ∧
    (∀ e ∈ edgeIter g.adj, memAdj g.adj e.1 e.2) := by
  constructor
  · intro u v hm
    rw [edgeIter_eq, countP_dedupScan, if_neg (by simp)]
    rw [if_pos]
    exact List.mem_map.mpr ⟨(u, v), (mem_allPairs_nodup hk u v).mpr hm, rfl⟩
  · intro e he
    rw [edgeIter_eq] at he
    exact (mem_allPairs_nodup hk e.1 e.2).mp (mem_dedupScan he)

/-- Witness for claim C6 at a concrete symmetric state holding the single
edge between 1 and 2. -/
theorem undirected_edge_iteration_exactly_once_w :
    keysNodup (UndirectedGraph.mk [((1 : Nat), [2]), (2, [1])] 1).adj ∧
    Symm (UndirectedGraph.mk [((1 : Nat), [2]), (2, [1])] 1).adj ∧
    memAdj (UndirectedGraph.mk [((1 : Nat), [2]), (2, [1])] 1).adj 1 2 ∧
    (edgeIter (UndirectedGraph.mk [((1 : Nat), [2]), (2, [1])] 1).adj).countP
      (fun e => decide (Sym2.mk e = Sym2.mk (1, 2))) = 1 :=
  ⟨by decide, symm_of_entries (by decide), by decide,
   (undirected_edge_iteration_exactly_once (by decide)
     (symm_of_entries (by decide))).1 1 2 (by decide)⟩

/-- Claim C10: on an undirected graph state (well-formed and symmetric, as
the data model requires) and distinct labels `u`, `v`, the calls
`add_edge(u, v)` and `add_edge(v, u)` both succeed and produce identical
graph states: the adjacency mappings agree on every key (Python dictionary
equality is insertion-order-insensitive) and the edge counters are
equal. -/
theorem undirected_add_edge_commutes {g : UndirectedGraph α} {u v : α}
    (hk : keysNodup g.adj) (hs : Symm g.adj) (huv : u ≠ v) :
    ∃ g1 g2, g.add_edge u v = .ok g1 ∧ g.add_edge v u = .ok g2 ∧
      (∀ w, dictGet g1.adj w = dictGet g2.adj w) ∧
      g1._number_of_edges = g2._number_of_edges := by
  have hvu : v ≠ u := Ne.symm huv
  have hAB : ∀ w, dictGet ((g.add_node u).add_node v).adj w =
      dictGet ((g.add_node v).add_node u).adj w := by
    intro w
    rw [UndirectedGraph.dictGet_add_node, UndirectedGraph.dictGet_add_node,
        UndirectedGraph.dictGet_add_node, UndirectedGraph.dictGet_add_node]
    cases hd : dictGet g.adj w with
    | some s => simp only [hd]
    | none =>
      simp only [hd]
      by_cases hu : u = w
      · have hv : ¬ v = w := fun hh => huv (hu.trans hh.symm)
        simp [hu, hv]
      · by_cases hv : v = w
        · simp [hu, hv]
        · simp [hu, hv]
  have hcount : ((g.add_node u).add_node v)._number_of_edges =
      ((g.add_node v).add_node u)._number_of_edges := by
    rw [UndirectedGraph.add_node_count, UndirectedGraph.add_node_count,
        UndirectedGraph.add_node_count, UndirectedGraph.add_node_count]
  have hiff : (edgeViewContains ((g.add_node u).add_node v).adj u v = true) ↔
      (edgeViewContains ((g.add_node v).add_node u).adj v u = true) := by
    rw [edgeViewContains_iff, edgeViewContains_iff,
        UndirectedGraph.memAdj_add_node, UndirectedGraph.memAdj_add_node,
        UndirectedGraph.memAdj_add_node, UndirectedGraph.memAdj_add_node]
    exact ⟨hs u v, hs v u⟩
  by_cases hc : edgeViewContains ((g.add_node u).add_node v).adj u v = true
  · have hc' : edgeViewContains ((g.add_node v).add_node u).adj v u = true :=
      hiff.mp hc
    refine ⟨(g.add_node u).add_node v, (g.add_node v).add_node u, ?_, ?_, hAB, hcount⟩
    · rw [UndirectedGraph.add_edge_eq g huv, if_pos hc]
    · rw [UndirectedGraph.add_edge_eq g hvu, if_pos hc']
  · have hc' : ¬ edgeViewContains ((g.add_node v).add_node u).adj v u = true :=
      fun hh => hc (hiff.mpr hh)
    refine ⟨⟨insertEdgeAdj ((g.add_node u).add_node v).adj u v,
        ((g.add_node u).add_node v)._number_of_edges + 1⟩,
      ⟨insertEdgeAdj ((g.add_node v).add_node u).adj v u,
        ((g.add_node v).add_node u)._number_of_edges + 1⟩, ?_, ?_, ?_, ?_⟩
    · rw [UndirectedGraph.add_edge_eq g huv, if_neg hc]
    · rw [UndirectedGraph.add_edge_eq g hvu, if_neg hc']
    · intro w
      show dictGet (insertEdgeAdj ((g.add_node u).add_node v).adj u v) w =
           dictGet (insertEdgeAdj ((g.add_node v).add_node u).adj v u) w
      unfold insertEdgeAdj
      simp only [dictGet_dictAdjust]
      by_cases hwv : w = v
      · have hwu : ¬ w = u := fun hh => huv (hh.symm.trans hwv)
        simp [hwv, hwu, hvu, huv, hAB v]
      · by_cases hwu : w = u
        · simp [hwv, hwu, hvu, huv, hAB u]
        · simp [hwv, hwu, hAB w]
    · show ((g.add_node u).add_node v)._number_of_edges + 1 =
          ((g.add_node v).add_node u)._number_of_edges + 1
      rw [hcount]

/-- Witness for claim C10 on the empty undirected graph with labels 1 and
2. -/
theorem undirected_add_edge_commutes_w :
    keysNodup (UndirectedGraph.empty (α := Nat)).adj ∧
    Symm (UndirectedGraph.empty (α := Nat)).adj ∧
    (1 : Nat) ≠ 2 ∧
    (∃ g1 g2, (UndirectedGraph.empty (α := Nat)).add_edge 1 2 = .ok g1 ∧
      (UndirectedGraph.empty (α := Nat)).add_edge 2 1 = .ok g2 ∧
      (∀ w, dictGet g1.adj w = dictGet g2.adj w) ∧
      g1._number_of_edges = g2._number_of_edges) :=
  ⟨by decide, symm_of_entries (by decide), by decide,
   undirected_add_edge_commutes (by decide) (symm_of_entries (by decide))
     (by decide)⟩
